import Mathlib

/-!
Verification of the polymarket-dashboard core logic.

This file gives a shallow embedding, in Lean 4, of the classification,
normalization, aggregation and time-series-alignment logic of the
repository (`src/lib/polymarket.ts`, `src/types/market.ts`,
`src/components/WalmartEarnings.tsx`, and the unnamed chart component),
and proves or refutes the specification's claims about it.

Modelling conventions:
  * JavaScript numbers are modelled as `Rat` (no claim here depends on
    floating-point rounding); a possibly-absent or NaN-producing numeric
    value is an `Option Rat` with `none` for `undefined`/NaN, so that the
    JavaScript truthiness used by `x || y` is expressible (`0`, `NaN` and
    `undefined` are falsy).
  * Strings are Lean `String`s; the case-insensitive regexes of the source
    are modelled by lowercasing the text and matching lowercase patterns
    with a small executable regex interpreter (`Rx`) covering exactly the
    constructs the source uses: literals, `\s+`, alternation, `?`,
    concatenation, and the word-boundary anchors `\b` (kept as two
    side-flags of a `Pat`, since every `\b` of the source sits at the very
    start or very end of an alternative made of word characters).
  * A JSON-string-encoded field (`outcomePrices`, `clobTokenIds`) is
    modelled by the outcome of parsing it (`RawField`): a string field
    carries `some v` when `JSON.parse` succeeds and `none` when it throws.
-/

/-! ## Characters, lowercasing, word characters -/

/-- ASCII lowercasing, the effect of the `i` flag / `toLowerCase()` on the
ASCII texts handled here. -/
def lowerChar (c : Char) : Char :=
  if 'A' ≤ c ∧ c ≤ 'Z' then Char.ofNat (c.toNat + 32) else c

/-- Lowercased character list of a string. -/
def strLower (s : String) : List Char :=
  s.data.map lowerChar

/-- JavaScript regex word character `\w` = `[A-Za-z0-9_]`. -/
def isWordChar (c : Char) : Bool :=
  ('a' ≤ c && c ≤ 'z') || ('A' ≤ c && c ≤ 'Z') || ('0' ≤ c && c ≤ '9') || c = '_'

/-- JavaScript regex whitespace `\s` (ASCII part). -/
def isSpaceChar (c : Char) : Bool :=
  c = ' ' || c = '\t' || c = '\n' || c = '\r' || c = Char.ofNat 11 || c = Char.ofNat 12

/-! ## A small regex interpreter -/

/-- Regular-expression fragments used by the source's patterns. -/
inductive Rx where
  | lit : List Char → Rx
  | ws : Rx
  | alt : Rx → Rx → Rx
  | opt : Rx → Rx
  | seq : Rx → Rx → Rx
deriving Repr

/-- Suffixes reachable by consuming one-or-more whitespace characters
(the `\s+` construct). -/
def wsTail : List Char → List (List Char)
  | [] => []
  | c :: s => if isSpaceChar c then s :: wsTail s else []

/-- All suffixes left over after matching `r` at the front of `s`. -/
def matchRx : Rx → List Char → List (List Char)
  | .lit w, s => if w.isPrefixOf s then [s.drop w.length] else []
  | .ws, s => wsTail s
  | .alt a b, s => matchRx a s ++ matchRx b s
  | .opt r, s => s :: matchRx r s
  | .seq a b, s => (matchRx a s).flatMap (matchRx b)

/-- Is the (optional) character left of the match position a non-word
character (or the start of the text)?  Used for a leading `\b` whose
pattern starts with a word character. -/
def notWordOpt : Option Char → Bool
  | none => true
  | some c => !isWordChar c

/-- Is the head of the remaining suffix a non-word character (or the end
of the text)?  Used for a trailing `\b` whose pattern ends with a word
character. -/
def notWordHead (s : List Char) : Bool :=
  match s with
  | [] => true
  | c :: _ => !isWordChar c

/-- Scan `s` for a match of `r` at any position; `prev` is the character
just before the current position.  `wbL`/`wbR` demand a word boundary
before/after the match. -/
def rxScan (wbL wbR : Bool) (r : Rx) : Option Char → List Char → Bool
  | prev, s =>
    ((!wbL || notWordOpt prev) && (matchRx r s).any (fun t => !wbR || notWordHead t)) ||
    (match s with
     | [] => false
     | c :: s' => rxScan wbL wbR r (some c) s')

/-- A source regex: a fragment plus its (outermost) word-boundary anchors. -/
structure Pat where
  wbL : Bool
  wbR : Bool
  rx : Rx

/-- `pattern.test(text)` for a case-insensitive source regex. -/
def reTest (p : Pat) (text : String) : Bool :=
  rxScan p.wbL p.wbR p.rx none (strLower text)

/-- Literal word fragment. -/
def lw (s : String) : Rx := .lit s.data

/-- Left fold of alternatives. -/
def alts (r : Rx) (rs : List Rx) : Rx := rs.foldl Rx.alt r

/-! ## The retailer patterns (`src/types/market.ts`, `src/lib/polymarket.ts`) -/

inductive RetailerName where
  | walmart | amazon | costco | target
deriving DecidableEq, Repr

/-- `STOCK_TICKERS` of `src/lib/polymarket.ts`: each source regex is an
alternation `\bW1\b|\bW2\b` of two word-bounded literals, modelled as the
two bounded-word patterns (testing an alternation equals testing each
alternative). -/
def STOCK_TICKERS : RetailerName → List Pat
  | .walmart => [⟨true, true, lw "wmt"⟩, ⟨true, true, lw "walmart"⟩]
  | .amazon => [⟨true, true, lw "amzn"⟩, ⟨true, true, lw "amazon"⟩]
  | .costco => [⟨true, true, lw "cost"⟩, ⟨true, true, lw "costco"⟩]
  | .target => [⟨true, true, lw "tgt"⟩, ⟨true, true, lw "target"⟩]

/-- `EXCLUSION_PATTERNS` of `src/types/market.ts`. -/
def EXCLUSION_PATTERNS : RetailerName → List Pat
  | .walmart => []
  | .amazon =>
      [⟨false, false, .seq (lw "amazon") (.seq .ws (lw "mgm"))⟩,
       ⟨false, false, .seq (lw "amazon") (.seq .ws (lw "river"))⟩,
       ⟨false, false, .seq (lw "amazon") (.seq .ws (lw "rainforest"))⟩,
       ⟨false, false, .seq (lw "amazon") (.seq .ws (lw "forest"))⟩,
       ⟨false, false, .seq (lw "amazon") (.seq .ws (.seq (lw "prime") (.seq .ws (lw "video"))))⟩,
       ⟨false, false, .seq (lw "amazon") (.seq .ws (lw "studios"))⟩]
  | .costco => []
  | .target =>
      [⟨false, false, .seq (lw "target") (.seq .ws
          (alts (lw "range") [lw "rate", lw "area", lw "zone", lw "strike", lw "military",
            lw "attack", lw "bombing", lw "price", lw "audience", lw "demographic"]))⟩,
       ⟨false, false, .seq (lw "federal") (.seq .ws
          (.seq (lw "fund") (.seq (.opt (lw "s")) (.seq .ws (lw "target")))))⟩,
       ⟨false, false, .seq (lw "inflation") (.seq .ws (lw "target"))⟩,
       ⟨false, false, .seq (lw "price") (.seq .ws (lw "target"))⟩,
       ⟨true, true, .seq (lw "target") (.seq (.opt (alts (lw "s") [lw "ed", lw "ing"]))
          (.seq .ws (alts (lw "of") [lw "by", lw "at", lw "for"])))⟩]

/-- `matchesRetailer` of `src/lib/polymarket.ts`: the ticker pattern must
match and no exclusion pattern may match. -/
def matchesRetailer (text : String) (retailer : RetailerName) : Bool :=
  (STOCK_TICKERS retailer).any (fun p => reTest p text) &&
  !((EXCLUSION_PATTERNS retailer).any (fun p => reTest p text))

/-- The fixed evaluation order of the classification loops in
`fetchRetailerMarkets`. -/
def retailerOrder : List RetailerName :=
  [.walmart, .amazon, .costco, .target]

/-- The classification decision of the loops in `fetchRetailerMarkets`:
the first retailer, in the fixed order, accepted by `matchesRetailer`. -/
def classify (text : String) : Option RetailerName :=
  retailerOrder.find? (matchesRetailer text)

/-! ## Data model (`src/types/market.ts`) -/

/-- A raw upstream field that the source decodes defensively: a
string-encoded JSON value (represented by its parse outcome, `none` when
`JSON.parse` would throw), an already-decoded array, or absent. -/
inductive RawField (α : Type) where
  | str : Option α → RawField α
  | arr : α → RawField α
  | absent : RawField α
deriving DecidableEq

/-- JavaScript `a || b` on a possibly-absent number: `undefined`, `NaN`
(both `none`) and `0` are falsy. -/
def jsOrNum (a : Option Rat) (b : Rat) : Rat :=
  match a with
  | some x => if x = 0 then b else x
  | none => b

/-- JavaScript `a || b` on a possibly-absent string: `undefined` and the
empty string are falsy. -/
def jsOrStr (a : Option String) (b : String) : String :=
  match a with
  | some s => if s = "" then b else s
  | none => b

/-- JavaScript `l[i] || 0`. -/
def idxOr (l : List Rat) (i : Nat) : Rat :=
  jsOrNum l[i]? 0

/-- The raw `Market` record of the upstream API (`src/types/market.ts`),
restricted to the fields the core logic reads.  Numeric fields are
`Option Rat` (`none` = absent); `volume`/`liquidity` are the
string-encoded magnitudes represented by their `parseFloat` outcome
(`none` = absent or not-a-number). -/
structure Market where
  id : String
  question : String
  slug : String
  description : Option String
  category : Option String
  endDate : String
  outcomes : Option (List String)
  outcomePrices : RawField (List Rat)
  volume : Option Rat
  volumeNum : Option Rat
  liquidity : Option Rat
  liquidityNum : Option Rat
  volume24hr : Option Rat
  oneDayPriceChange : Option Rat
  oneHourPriceChange : Option Rat
  oneWeekPriceChange : Option Rat
  active : Bool
  closed : Bool
  clobTokenIds : RawField (List String)
deriving DecidableEq

/-- The raw `Event` record (`src/types/market.ts`). -/
structure Event where
  id : String
  title : Option String
  slug : String
  markets : Option (List Market)
deriving DecidableEq

/-- `ParsedMarket` (`src/types/market.ts`). -/
structure ParsedMarket where
  id : String
  question : String
  slug : String
  eventSlug : String
  description : String
  category : String
  endDate : String
  outcomes : List String
  prices : List Rat
  volume : Rat
  volume24hr : Rat
  liquidity : Rat
  priceChange24h : Rat
  priceChange1h : Rat
  priceChange1w : Rat
  active : Bool
  closed : Bool
  yesPrice : Rat
  noPrice : Rat
  clobTokenIds : List String
deriving DecidableEq

/-! ## Record normalizer (`parseMarket`, `src/lib/polymarket.ts`) -/

/-- The `try`/`catch` block decoding `market.outcomePrices`: a string
field that fails to parse yields `[0, 0]`; a field of any other shape
leaves the initial `[]`.  (For an array field the source additionally
maps `parseFloat` over string elements; array elements are represented
here by their resulting numeric values.) -/
def parsePrices : RawField (List Rat) → List Rat
  | .str (some l) => l
  | .str none => [0, 0]
  | .arr l => l
  | .absent => []

/-- The `try`/`catch` block decoding `market.clobTokenIds`: a string
field that fails to parse yields `[]`. -/
def parseTokens : RawField (List String) → List String
  | .str (some l) => l
  | .str none => []
  | .arr l => l
  | .absent => []

/-- `parseMarket` of `src/lib/polymarket.ts`. -/
def parseMarket (market : Market) (eventSlug : Option String) : ParsedMarket :=
  let prices := parsePrices market.outcomePrices
  let tokenIds := parseTokens market.clobTokenIds
  { id := market.id
    question := market.question
    slug := market.slug
    eventSlug := jsOrStr eventSlug market.slug
    description := jsOrStr market.description ""
    category := jsOrStr market.category ""
    endDate := market.endDate
    outcomes := market.outcomes.getD ["Yes", "No"]
    prices := prices
    volume := jsOrNum market.volumeNum (jsOrNum market.volume 0)
    volume24hr := jsOrNum market.volume24hr 0
    liquidity := jsOrNum market.liquidityNum (jsOrNum market.liquidity 0)
    priceChange24h := jsOrNum market.oneDayPriceChange 0
    priceChange1h := jsOrNum market.oneHourPriceChange 0
    priceChange1w := jsOrNum market.oneWeekPriceChange 0
    active := market.active
    closed := market.closed
    yesPrice := idxOr prices 0
    noPrice := idxOr prices 1
    clobTokenIds := tokenIds }

/-! ## Series aligner (`ResolvedEarningsDashlet` in
`src/components/WalmartEarnings.tsx` and `PriceChart` in the unnamed
chart component; both copies carry identical matching logic) -/

/-- One sample of a time series (`PriceHistoryPoint` / stock history
point): unix timestamp in seconds and a scalar value. -/
structure PricePoint where
  timestamp : Int
  price : Rat
deriving DecidableEq

/-- `Map.set` semantics of a JavaScript `Map` represented as an ordered
association list: an existing key keeps its position and takes the new
value; a new key is appended. -/
def mapSet (m : List (Int × Rat)) (k : Int) (v : Rat) : List (Int × Rat) :=
  if m.any (fun e => e.1 = k) then
    m.map (fun e => if e.1 = k then (k, v) else e)
  else
    m ++ [(k, v)]

/-- `new Map(stockHistory.map(s => [s.timestamp, s.price]))`. -/
def buildStockMap (stockHistory : List PricePoint) : List (Int × Rat) :=
  stockHistory.foldl (fun m s => mapSet m s.timestamp s.price) []

/-- Absolute timestamp difference, `Math.abs(ts - point.timestamp)`. -/
def diffOf (t : Int) (e : Int × Rat) : Nat :=
  (e.1 - t).natAbs

/-- One iteration of the closest-point loop.  The accumulator holds
(`closestStockPrice`, `minDiff`), with `none` for the initial
`null` / `Infinity`; the update fires when `diff < minDiff && diff <
window`. -/
def closestStep (t : Int) (window : Nat) (acc : Option Rat × Option Nat)
    (e : Int × Rat) : Option Rat × Option Nat :=
  let diff := diffOf t e
  let isCloser : Bool :=
    match acc.2 with
    | none => true
    | some m => diff < m
  if isCloser && diff < window then (some e.2, some diff) else acc

/-- The whole `for (const [ts, price] of stockMap)` loop: the matched
stock price for probability timestamp `t`, or `none`. -/
def closestWithin (stockMap : List (Int × Rat)) (t : Int) (window : Nat) : Option Rat :=
  (stockMap.foldl (closestStep t window) (none, none)).1

/-- The alignment window hard-coded in both copies of the loop
(3 days = 259200 seconds). -/
def WINDOW : Nat := 259200

/-- One chart-ready point; `matchedPrice` is the `stockPrice` field of
the source's `chartData` entries (the chart additionally rescales
timestamp and probability for display, which no claim concerns). -/
structure AlignedPoint where
  timestamp : Int
  probability : Rat
  matchedPrice : Option Rat
deriving DecidableEq

/-- The `history.map(point => ...)` alignment, with the window kept as a
parameter (`windowSeconds` of the specification's contract; the source
instantiates it with `WINDOW`). -/
def alignSeries (history stockHistory : List PricePoint) (window : Nat) : List AlignedPoint :=
  let stockMap := buildStockMap stockHistory
  history.map (fun p => ⟨p.timestamp, p.price, closestWithin stockMap p.timestamp window⟩)

/-- The source's `chartData` matching, window fixed at `WINDOW`. -/
def chartData (history stockHistory : List PricePoint) : List AlignedPoint :=
  alignSeries history stockHistory WINDOW

/-! ## Aggregator (`fetchRetailerMarkets`, `src/lib/polymarket.ts`) -/

/-- The five buckets of the `fetchRetailerMarkets` result. -/
structure RetailerResult where
  walmart : List ParsedMarket
  amazon : List ParsedMarket
  costco : List ParsedMarket
  target : List ParsedMarket
  other : List ParsedMarket
deriving DecidableEq

/-- `result[retailer].push(m)`. -/
def pushRetailer (res : RetailerResult) (r : RetailerName) (m : ParsedMarket) : RetailerResult :=
  match r with
  | .walmart => { res with walmart := res.walmart ++ [m] }
  | .amazon => { res with amazon := res.amazon ++ [m] }
  | .costco => { res with costco := res.costco ++ [m] }
  | .target => { res with target := res.target ++ [m] }

/-- The shared body of the three classification passes: classify one
market's text and, on success, push the parsed market and record its id.
`checkProcessed` is whether the pass skips ids already in
`processedMarketIds` (the first pass does not). -/
def processMarket (checkProcessed : Bool) (text : String) (market : Market)
    (eventSlug : Option String) (acc : RetailerResult × List String) :
    RetailerResult × List String :=
  if !market.active || market.closed || (checkProcessed && acc.2.contains market.id) then
    acc
  else
    match classify text with
    | some r => (pushRetailer acc.1 r (parseMarket market eventSlug), acc.2 ++ [market.id])
    | none => acc

/-- Text assembled for a market seen under an event:
`` `${eventTitle} ${market.question} ${market.description || ''}` ``. -/
def eventMarketText (ev : Event) (market : Market) : String :=
  jsOrStr ev.title "" ++ " " ++ market.question ++ " " ++ jsOrStr market.description ""

/-- Text assembled for a market from the general listing:
`` `${market.question} ${market.description || ''}` ``. -/
def plainMarketText (market : Market) : String :=
  market.question ++ " " ++ jsOrStr market.description ""

/-- One pass over a list of events (`stockEvents` with
`checkProcessed := false`, `generalEvents` with `true`). -/
def processEvents (checkProcessed : Bool) (events : List Event)
    (acc : RetailerResult × List String) : RetailerResult × List String :=
  events.foldl
    (fun acc ev =>
      match ev.markets with
      | none => acc
      | some ms =>
          ms.foldl
            (fun acc m => processMarket checkProcessed (eventMarketText ev m) m (some ev.slug) acc)
            acc)
    acc

/-- The pass over `generalMarkets` (no event context). -/
def processGeneralMarkets (markets : List Market)
    (acc : RetailerResult × List String) : RetailerResult × List String :=
  markets.foldl (fun acc m => processMarket true (plainMarketText m) m none acc) acc

/-- The final per-bucket `Map`-based deduplication: first occurrence of
each id wins, order preserved. -/
def dedupById (l : List ParsedMarket) : List ParsedMarket :=
  l.foldl (fun acc m => if acc.any (fun x => x.id = m.id) then acc else acc ++ [m]) []

/-- Insert a market into a volume-descending list, after any
equal-volume entries already present (preserving input order on ties). -/
def insertByVolume (m : ParsedMarket) : List ParsedMarket → List ParsedMarket
  | [] => [m]
  | x :: xs => if x.volume ≤ m.volume then m :: x :: xs else x :: insertByVolume m xs

/-- `sort((a, b) => b.volume - a.volume)`: a stable descending sort by
volume (modelled as stable insertion sort; ECMAScript `Array.sort` is
required to be stable, and only the resulting stable descending order is
observable). -/
def sortByVolumeDesc : List ParsedMarket → List ParsedMarket
  | [] => []
  | x :: xs => insertByVolume x (sortByVolumeDesc xs)

/-- Deduplicate then sort, as applied to every bucket at the end of
`fetchRetailerMarkets`. -/
def finalizeBucket (l : List ParsedMarket) : List ParsedMarket :=
  sortByVolumeDesc (dedupById l)

/-- The pure core of `fetchRetailerMarkets`: the three classification
passes (stock events, general events, general markets) followed by
per-bucket deduplication and volume sorting. -/
def fetchRetailerMarketsCore (stockEvents generalEvents : List Event)
    (generalMarkets : List Market) : RetailerResult :=
  let acc0 : RetailerResult × List String := (⟨[], [], [], [], []⟩, [])
  let acc1 := processEvents false stockEvents acc0
  let acc2 := processEvents true generalEvents acc1
  let acc3 := processGeneralMarkets generalMarkets acc2
  let res := acc3.1
  { walmart := finalizeBucket res.walmart
    amazon := finalizeBucket res.amazon
    costco := finalizeBucket res.costco
    target := finalizeBucket res.target
    other := finalizeBucket res.other }

/-! ## Earnings sub-classifier (`isEarningsMarket`,
`src/components/WalmartEarnings.tsx`) -/

/-- Plain substring containment of `needle` in `hay` (JavaScript
`String.prototype.includes`). -/
def containsSub (hay needle : List Char) : Bool :=
  needle.isPrefixOf hay ||
  (match hay with
   | [] => false
   | _ :: t => containsSub t needle)

/-- The fixed earnings keyword set of `isEarningsMarket`, in source
order. -/
def earningsKeywords : List String :=
  ["earnings", "revenue", "eps", "quarterly", "q1", "q2", "q3", "q4",
   "fiscal", "beat", "guidance"]

/-- `isEarningsMarket` of `src/components/WalmartEarnings.tsx`: the
lowercased question must contain one of the keywords as a plain
substring. -/
def isEarningsMarket (market : ParsedMarket) : Bool :=
  let question := strLower market.question
  containsSub question (strLower "earnings") ||
  containsSub question (strLower "revenue") ||
  containsSub question (strLower "eps") ||
  containsSub question (strLower "quarterly") ||
  containsSub question (strLower "q1") ||
  containsSub question (strLower "q2") ||
  containsSub question (strLower "q3") ||
  containsSub question (strLower "q4") ||
  containsSub question (strLower "fiscal") ||
  containsSub question (strLower "beat") ||
  containsSub question (strLower "guidance")

/-! ## Earnings market listing (`fetchEarningsMarkets`,
`src/lib/polymarket.ts`) -/

/-- The `earningsPattern` regex
`\b(earnings|eps|quarterly|revenue|beat|guidance|q[1-4]|fiscal)\b`:
every alternative of the group is word-bounded; the class `q[1-4]` is
expanded into its four members. -/
def earningsPattern : Pat :=
  ⟨true, true,
    alts (lw "earnings")
      [lw "eps", lw "quarterly", lw "revenue", lw "beat", lw "guidance",
       lw "q1", lw "q2", lw "q3", lw "q4", lw "fiscal"]⟩

/-- `Map.set` for the event-deduplication map (`eventMap.set(e.id, e)`,
unconditional: an existing id keeps its position and takes the latest
event). -/
def mapSetEvent (m : List (String × Event)) (k : String) (v : Event) :
    List (String × Event) :=
  if m.any (fun e => e.1 = k) then
    m.map (fun e => if e.1 = k then (k, v) else e)
  else
    m ++ [(k, v)]

/-- `allEvents.forEach(e => eventMap.set(e.id, e))` followed by
`eventMap.values()`. -/
def dedupEvents (allEvents : List Event) : List Event :=
  (allEvents.foldl (fun m e => mapSetEvent m e.id e) []).map (fun e => e.2)

/-- The market-collection loop of `fetchEarningsMarkets`: active, open,
first-seen-by-id markets whose `` `${event.title || ''} ${market.question}` ``
matches `earningsPattern`. -/
def collectEarnings (events : List Event) : List ParsedMarket :=
  events.foldl
    (fun acc ev =>
      match ev.markets with
      | none => acc
      | some ms =>
          ms.foldl
            (fun acc m =>
              if m.active && !m.closed && !acc.any (fun x => x.id = m.id) &&
                  reTest earningsPattern (jsOrStr ev.title "" ++ " " ++ m.question) then
                acc ++ [parseMarket m (some ev.slug)]
              else acc)
            acc)
    []

/-- The pure core of `fetchEarningsMarkets`: deduplicate the combined
event lists by event id, collect earnings markets (first occurrence of a
market id wins), sort by volume descending, keep the top 25. -/
def fetchEarningsMarketsCore (allEvents : List Event) : List ParsedMarket :=
  (sortByVolumeDesc (collectEarnings (dedupEvents allEvents))).take 25

/-! ## Fetch wrappers and their failure behaviour
(`src/lib/polymarket.ts`) -/

/-- An upstream HTTP response: `ok` is `response.ok`; `payload` is the
body, `none` when `response.json()` would throw (malformed payload). -/
structure HttpResp (α : Type) where
  ok : Bool
  payload : Option α

/-- `fetchMarkets`: throws (`Except.error`) on a non-success status or a
malformed body. -/
def fetchMarketsM (resp : HttpResp (List Market)) : Except String (List Market) :=
  if resp.ok then
    match resp.payload with
    | some v => .ok v
    | none => .error "malformed payload"
  else
    .error "Failed to fetch markets"

/-- `fetchEvents`: throws on failure, otherwise flattens the events'
markets. -/
def fetchEventsM (resp : HttpResp (List Event)) : Except String (List Market) :=
  if resp.ok then
    match resp.payload with
    | some evs =>
        .ok (evs.foldl
          (fun acc e => match e.markets with | some ms => acc ++ ms | none => acc) [])
    | none => .error "malformed payload"
  else
    .error "Failed to fetch events"

/-- `fetchEventsByTag`: throws on a non-success status. -/
def fetchEventsByTagM (resp : HttpResp (List Event)) : Except String (List Event) :=
  if resp.ok then
    match resp.payload with
    | some evs => .ok evs
    | none => .error "malformed payload"
  else
    .error "Failed to fetch events by tag"

/-- `fetchEventsByTagSlug`: returns `[]` on a non-success status (after a
`console.warn`), but still throws on a malformed body. -/
def fetchEventsByTagSlugM (resp : HttpResp (List Event)) : Except String (List Event) :=
  if resp.ok then
    match resp.payload with
    | some evs => .ok evs
    | none => .error "malformed payload"
  else
    .ok []

/-- `fetchEventsBySlugPattern`: returns `[]` on a non-success status;
still throws on a malformed body (`data` is already a list here; the
`Array.isArray` wrapping of a single object is not distinguished). -/
def fetchEventsBySlugPatternM (resp : HttpResp (List Event)) : Except String (List Event) :=
  if resp.ok then
    match resp.payload with
    | some evs => .ok evs
    | none => .error "malformed payload"
  else
    .ok []

/-- `fetchPriceHistory`: the whole body is wrapped in `try`/`catch`, and
a missing `history` field yields `[]`, so every failure produces `[]`. -/
def fetchPriceHistoryM (resp : HttpResp (List PricePoint)) : Except String (List PricePoint) :=
  if resp.ok then
    match resp.payload with
    | some h => .ok h
    | none => .ok []
  else
    .ok []

/-! ## Specification-side characterizations and theorems -/

/-- The keyword, written as the last character seen before position
`pre` within context `prev`: the last character of `pre` if any,
otherwise `prev`. -/
lemma getLast?_cons_or (c : Char) (pre : List Char) (prev : Option Char) :
    ((c :: pre).getLast?).or prev = (pre.getLast?).or (some c) := by
  cases pre with
  | nil => simp
  | cons d t =>
      rw [List.getLast?_cons_cons]
      have h : (d :: t).getLast?.isSome := by
        simp [List.getLast?_isSome]
      obtain ⟨y, hy⟩ := Option.isSome_iff_exists.mp h
      rw [hy]
      simp

/-- Spec-side word-boundary occurrence: `w` occurs in `s` with a
non-word character (or an edge of the text) on both sides — never as a
substring of a longer word. -/
def WordOccurs (w s : List Char) : Prop :=
  ∃ pre post, s = pre ++ w ++ post ∧
    notWordOpt pre.getLast? = true ∧ notWordHead post = true

/-- The boundary-scan matcher agrees with the positional
characterization of a word-bounded literal: a match exists somewhere in
`s` (with left context `prev`) exactly when `s` splits as
`pre ++ w ++ post` with non-word characters (or edges) adjacent. -/
lemma rxScan_lit_iff (w : List Char) (hw : w ≠ []) (s : List Char) :
    ∀ prev : Option Char,
      (rxScan true true (.lit w) prev s = true ↔
        ∃ pre post, s = pre ++ w ++ post ∧
          notWordOpt ((pre.getLast?).or prev) = true ∧ notWordHead post = true) := by
  induction s with
  | nil =>
      intro prev
      constructor
      · intro h
        rw [rxScan] at h
        have hpre : w.isPrefixOf ([] : List Char) = false := by
          cases w with
          | nil => exact absurd rfl hw
          | cons a t => rfl
        simp [matchRx, hpre] at h
      · rintro ⟨pre, post, hsplit, -, -⟩
        exfalso
        cases w with
        | nil => exact hw rfl
        | cons a t => simp at hsplit
  | cons c s' ih =>
      intro prev
      rw [rxScan]
      constructor
      · intro h
        rcases Bool.or_eq_true_iff.mp h with hhere | hrec
        · rcases Bool.and_eq_true_iff.mp hhere with ⟨hprev, hany⟩
          rcases List.any_eq_true.mp hany with ⟨t, hmem, ht⟩
          rw [matchRx] at hmem
          by_cases hpre : w.isPrefixOf (c :: s')
          · rw [if_pos hpre] at hmem
            simp at hmem
            subst hmem
            obtain ⟨post, hpost⟩ := List.isPrefixOf_iff_prefix.mp hpre
            refine ⟨[], post, hpost.symm, ?_, ?_⟩
            · simpa using hprev
            · rw [← hpost, List.drop_left] at ht
              simpa using ht
          · rw [if_neg hpre] at hmem
            exact absurd hmem (List.not_mem_nil t)
        · obtain ⟨pre, post, hsplit, hlast, hhead⟩ := (ih (some c)).mp hrec
          refine ⟨c :: pre, post, by rw [hsplit]; rfl, ?_, hhead⟩
          rw [getLast?_cons_or]
          exact hlast
      · rintro ⟨pre, post, hsplit, hlast, hhead⟩
        cases pre with
        | nil =>
            apply Bool.or_eq_true_iff.mpr
            left
            apply Bool.and_eq_true_iff.mpr
            refine ⟨by simpa using hlast, ?_⟩
            apply List.any_eq_true.mpr
            simp only [List.nil_append] at hsplit
            have hpre : w.isPrefixOf (c :: s') = true :=
              List.isPrefixOf_iff_prefix.mpr ⟨post, hsplit.symm⟩
            refine ⟨(c :: s').drop w.length, ?_, ?_⟩
            · rw [matchRx, if_pos hpre]
              simp
            · rw [hsplit, List.drop_left]
              simpa using hhead
        | cons d pre' =>
            apply Bool.or_eq_true_iff.mpr
            right
            have hcd : d = c := by
              have := congrArg (fun l => l.head?) hsplit
              simpa using this.symm
            subst hcd
            apply (ih (some d)).mpr
            refine ⟨pre', post, ?_, ?_, hhead⟩
            · have := congrArg (fun l => l.tail) hsplit
              simpa using this
            · rw [getLast?_cons_or] at hlast
              exact hlast

/-- `reTest` of a word-bounded literal is exactly the spec-side
word-boundary occurrence in the lowercased text. -/
lemma reTest_bword_iff (kw : String) (hkw : kw.data ≠ []) (text : String) :
    reTest ⟨true, true, lw kw⟩ text = true ↔ WordOccurs kw.data (strLower text) := by
  rw [reTest, lw]
  rw [rxScan_lit_iff kw.data hkw (strLower text) none]
  unfold WordOccurs
  simp

/-- The keyword words of each retailer's `STOCK_TICKERS` regex, in
source order. -/
def tickerWords : RetailerName → List String
  | .walmart => ["wmt", "walmart"]
  | .amazon => ["amzn", "amazon"]
  | .costco => ["cost", "costco"]
  | .target => ["tgt", "target"]

/-- The claim's description of a retailer qualifying on a text: some
keyword occurs case-insensitively at word boundaries, and no exclusion
pattern matches. -/
def SpecRetailerMatch (text : String) (r : RetailerName) : Prop :=
  (∃ kw ∈ tickerWords r, WordOccurs (strLower kw) (strLower text)) ∧
  ∀ p ∈ EXCLUSION_PATTERNS r, reTest p text = false

/-- The keyword side of `matchesRetailer` is exactly "some ticker word
occurs at word boundaries in the lowercased text". -/
lemma ticker_any_iff (text : String) (r : RetailerName) :
    (STOCK_TICKERS r).any (fun p => reTest p text) = true ↔
      ∃ kw ∈ tickerWords r, WordOccurs (strLower kw) (strLower text) := by
  have hb : ∀ kw : String, kw.data ≠ [] → strLower kw = kw.data →
      (reTest ⟨true, true, lw kw⟩ text = true ↔ WordOccurs (strLower kw) (strLower text)) := by
    intro kw h1 h2
    rw [h2]
    exact reTest_bword_iff kw h1 text
  cases r <;>
    simp only [STOCK_TICKERS, tickerWords, List.any_cons, List.any_nil, Bool.or_false,
      Bool.or_eq_true, List.mem_cons, List.not_mem_nil, or_false, exists_eq_or_imp,
      exists_eq_left] <;>
    rw [hb _ (by decide) (by decide), hb _ (by decide) (by decide)]

/-- `matchesRetailer` decides exactly the spec-side predicate. -/
lemma matchesRetailer_iff (text : String) (r : RetailerName) :
    matchesRetailer text r = true ↔ SpecRetailerMatch text r := by
  rw [matchesRetailer, SpecRetailerMatch, Bool.and_eq_true]
  constructor
  · rintro ⟨h1, h2⟩
    refine ⟨(ticker_any_iff text r).mp h1, ?_⟩
    intro p hp
    simp only [Bool.not_eq_true'] at h2
    have := (List.any_eq_false.mp h2) p hp
    simpa using this
  · rintro ⟨h1, h2⟩
    refine ⟨(ticker_any_iff text r).mpr h1, ?_⟩
    simp only [Bool.not_eq_true']
    apply List.any_eq_false.mpr
    intro p hp
    simp [h2 p hp]

/-- The retailers strictly earlier in the fixed evaluation order. -/
def priorRetailers : RetailerName → List RetailerName
  | .walmart => []
  | .amazon => [.walmart]
  | .costco => [.walmart, .amazon]
  | .target => [.walmart, .amazon, .costco]

/-- **C1.** `classify` returns the first retailer in the fixed order
walmart, amazon, costco, target whose keyword patterns match the text
case-insensitively at word boundaries (never as a substring of a longer
word) and none of whose exclusion patterns match; a retailer whose
keyword matches but whose exclusion also matches fails
`SpecRetailerMatch` and evaluation continues with the next retailer; if
no retailer qualifies, `classify` returns `none`. -/
theorem classify_first_match_wins (text : String) :
    (∀ r : RetailerName, classify text = some r ↔
        (SpecRetailerMatch text r ∧ ∀ r' ∈ priorRetailers r, ¬ SpecRetailerMatch text r')) ∧
    (classify text = none ↔ ∀ r : RetailerName, ¬ SpecRetailerMatch text r) := by
  have key : ∀ r, SpecRetailerMatch text r ↔ matchesRetailer text r = true :=
    fun r => (matchesRetailer_iff text r).symm
  cases hw : matchesRetailer text .walmart <;>
  cases ha : matchesRetailer text .amazon <;>
  cases hc : matchesRetailer text .costco <;>
  cases ht : matchesRetailer text .target <;>
  · constructor
    · intro r
      cases r <;>
        simp [classify, retailerOrder, priorRetailers, key, hw, ha, hc, ht, List.find?]
    · constructor
      · intro hnone r
        cases r <;>
          simp_all [classify, retailerOrder, key, List.find?]
      · intro hall
        simp_all [classify, retailerOrder, key, List.find?]

/-- `containsSub` is plain substring containment. -/
lemma containsSub_iff (hay needle : List Char) :
    containsSub hay needle = true ↔ ∃ pre post, hay = pre ++ needle ++ post := by
  induction hay with
  | nil =>
      rw [containsSub]
      cases needle with
      | nil => simp [List.isPrefixOf]
      | cons a t => simp [List.isPrefixOf]
  | cons c t ih =>
      rw [containsSub]
      constructor
      · intro h
        rcases Bool.or_eq_true_iff.mp h with hpre | hrec
        · obtain ⟨post, hpost⟩ := List.isPrefixOf_iff_prefix.mp hpre
          exact ⟨[], post, by rw [← hpost]; rfl⟩
        · obtain ⟨pre, post, hsplit⟩ := ih.mp hrec
          exact ⟨c :: pre, post, by rw [hsplit]; rfl⟩
      · rintro ⟨pre, post, hsplit⟩
        apply Bool.or_eq_true_iff.mpr
        cases pre with
        | nil =>
            left
            simp only [List.nil_append] at hsplit
            exact List.isPrefixOf_iff_prefix.mpr ⟨post, hsplit.symm⟩
        | cons d pre' =>
            right
            have hcd : d = c := by
              have := congrArg (fun l => l.head?) hsplit
              simpa using this.symm
            subst hcd
            apply ih.mpr
            refine ⟨pre', post, ?_⟩
            have := congrArg (fun l => l.tail) hsplit
            simpa using this

/-- **C4.** `isEarningsMarket` returns `true` exactly when the market's
question contains one of the fixed earnings keywords by case-insensitive
plain substring containment (no word-boundary requirement, so an
occurrence inside a longer word counts). -/
theorem isEarningsMarket_iff_substring (m : ParsedMarket) :
    isEarningsMarket m = true ↔
      ∃ kw ∈ earningsKeywords, ∃ pre post,
        strLower m.question = pre ++ strLower kw ++ post := by
  rw [isEarningsMarket]
  simp only [earningsKeywords, List.mem_cons, List.not_mem_nil, or_false,
    exists_eq_or_imp, exists_eq_left, Bool.or_eq_true, containsSub_iff]
  simp only [or_assoc]

/-- A baseline raw market record used to instantiate theorems with
hypotheses. -/
def sampleMarket : Market :=
  { id := "m0", question := "q", slug := "s", description := none,
    category := none, endDate := "2025-01-01", outcomes := none,
    outcomePrices := .str none, volume := none, volumeNum := none,
    liquidity := none, liquidityNum := none, volume24hr := none,
    oneDayPriceChange := none, oneHourPriceChange := none,
    oneWeekPriceChange := none, active := true, closed := false,
    clobTokenIds := .str none }

/-- **C7.** `parseMarket` is a total function into `ParsedMarket` (so no
failure propagates to the caller), and a string outcome-price field that
fails to parse yields `[0, 0]` while a string token-id field that fails
to parse yields `[]`. -/
theorem parseMarket_malformed_defaults (m : Market) (es : Option String) :
    (m.outcomePrices = RawField.str none → (parseMarket m es).prices = [0, 0]) ∧
    (m.clobTokenIds = RawField.str none → (parseMarket m es).clobTokenIds = []) := by
  constructor
  · intro h
    simp [parseMarket, parsePrices, h]
  · intro h
    simp [parseMarket, parseTokens, h]

/-- Witness for C7 at a concrete malformed record. -/
theorem parseMarket_malformed_defaults_witness :
    (parseMarket sampleMarket none).prices = [0, 0] ∧
    (parseMarket sampleMarket none).clobTokenIds = [] :=
  ⟨(parseMarket_malformed_defaults sampleMarket none).1 rfl,
   (parseMarket_malformed_defaults sampleMarket none).2 rfl⟩

/-- A market whose pre-computed numeric volume is present with value `0`
while the companion string field parses to `5`. -/
def marketVolZero : Market :=
  { sampleMarket with volumeNum := some 0, volume := some 5 }

/-- **C8 counterexample.** A record whose numeric volume field is
present with value `0` does NOT normalize to volume `0`: the JavaScript
`||` treats `0` as falsy and falls through to the string field, giving
`5`. -/
theorem volume_zero_numeric_falls_through :
    (parseMarket marketVolZero none).volume = 5 ∧
    ¬ ((parseMarket marketVolZero none).volume = 0) := by
  constructor
  · decide
  · decide

/-- **C8 amended.** The volume/liquidity coercion follows JavaScript
truthiness, not mere presence: the numeric field is used when present
AND nonzero; otherwise the parsed string field is used when it parses to
a nonzero value; otherwise the result is `0`.  In particular a numeric
field carrying `0` falls through to the string field. -/
theorem volume_liquidity_coercion (m : Market) (es : Option String) :
    ((∀ x, m.volumeNum = some x → x ≠ 0 → (parseMarket m es).volume = x) ∧
     ((m.volumeNum = none ∨ m.volumeNum = some 0) →
        ∀ y, m.volume = some y → y ≠ 0 → (parseMarket m es).volume = y) ∧
     ((m.volumeNum = none ∨ m.volumeNum = some 0) →
        (m.volume = none ∨ m.volume = some 0) → (parseMarket m es).volume = 0)) ∧
    ((∀ x, m.liquidityNum = some x → x ≠ 0 → (parseMarket m es).liquidity = x) ∧
     ((m.liquidityNum = none ∨ m.liquidityNum = some 0) →
        ∀ y, m.liquidity = some y → y ≠ 0 → (parseMarket m es).liquidity = y) ∧
     ((m.liquidityNum = none ∨ m.liquidityNum = some 0) →
        (m.liquidity = none ∨ m.liquidity = some 0) → (parseMarket m es).liquidity = 0)) := by
  refine ⟨⟨?_, ?_, ?_⟩, ?_, ?_, ?_⟩
  · intro x hx hx0
    simp [parseMarket, jsOrNum, hx, hx0]
  · rintro (h | h) y hy hy0 <;> simp [parseMarket, jsOrNum, h, hy, hy0]
  · rintro (h | h) (h' | h') <;> simp [parseMarket, jsOrNum, h, h']
  · intro x hx hx0
    simp [parseMarket, jsOrNum, hx, hx0]
  · rintro (h | h) y hy hy0 <;> simp [parseMarket, jsOrNum, h, hy, hy0]
  · rintro (h | h) (h' | h') <;> simp [parseMarket, jsOrNum, h, h']

/-- A record exercising all three coercion tiers. -/
def marketCoercion : Market :=
  { sampleMarket with
    volumeNum := some 3
    volume := some 7
    liquidityNum := none
    liquidity := some 4 }

/-- Witness for the amended C8 at a concrete record. -/
theorem volume_liquidity_coercion_witness :
    (parseMarket marketCoercion none).volume = 3 ∧
    (parseMarket marketCoercion none).liquidity = 4 :=
  ⟨(volume_liquidity_coercion marketCoercion none).1.1 3 rfl (by decide),
   (volume_liquidity_coercion marketCoercion none).2.2.1 (Or.inl rfl) 4 rfl (by decide)⟩

/-- **C6 counterexample.** `fetchMarkets` does NOT return an empty list
on a failed fetch: a non-success HTTP status makes it throw, so its
failure aborts the fetch cycle awaiting it. -/
theorem fetchMarkets_raises_on_failure :
    fetchMarketsM ⟨false, some []⟩ = Except.error "Failed to fetch markets" ∧
    ∀ l : List Market, ¬ (fetchMarketsM ⟨false, some []⟩ = Except.ok l) := by
  constructor
  · rfl
  · intro l h
    simp [fetchMarketsM] at h

/-- **C6 amended.** Only the tag-slug, slug-pattern and price-history
fetches return `[]` on a non-success HTTP status; `fetchMarkets`,
`fetchEvents` and `fetchEventsByTag` throw on a non-success status, so a
failure of one of those sources aborts the fetch cycle rather than
contributing an empty list. -/
theorem fetch_failure_split (rm : HttpResp (List Market))
    (re rt rs rp : HttpResp (List Event)) (rh : HttpResp (List PricePoint))
    (hm : rm.ok = false) (he : re.ok = false) (ht : rt.ok = false)
    (hs : rs.ok = false) (hp : rp.ok = false) (hh : rh.ok = false) :
    fetchMarketsM rm = .error "Failed to fetch markets" ∧
    fetchEventsM re = .error "Failed to fetch events" ∧
    fetchEventsByTagM rt = .error "Failed to fetch events by tag" ∧
    fetchEventsByTagSlugM rs = .ok [] ∧
    fetchEventsBySlugPatternM rp = .ok [] ∧
    fetchPriceHistoryM rh = .ok [] := by
  refine ⟨?_, ?_, ?_, ?_, ?_, ?_⟩ <;>
    simp [fetchMarketsM, fetchEventsM, fetchEventsByTagM, fetchEventsByTagSlugM,
      fetchEventsBySlugPatternM, fetchPriceHistoryM, hm, he, ht, hs, hp, hh]

/-- Witness for the amended C6 at concrete failed responses. -/
theorem fetch_failure_split_witness :
    fetchMarketsM ⟨false, none⟩ = .error "Failed to fetch markets" ∧
    fetchEventsM ⟨false, none⟩ = .error "Failed to fetch events" ∧
    fetchEventsByTagM ⟨false, none⟩ = .error "Failed to fetch events by tag" ∧
    fetchEventsByTagSlugM ⟨false, none⟩ = .ok [] ∧
    fetchEventsBySlugPatternM ⟨false, none⟩ = .ok [] ∧
    fetchPriceHistoryM ⟨false, none⟩ = .ok [] :=
  fetch_failure_split ⟨false, none⟩ ⟨false, none⟩ ⟨false, none⟩ ⟨false, none⟩
    ⟨false, none⟩ ⟨false, none⟩ rfl rfl rfl rfl rfl rfl

/-! ## Nearest-neighbour alignment: invariants and claims -/

/-- Invariant of the closest-point loop after the entries `seen` have
been visited: either nothing strictly within the window has been seen,
or the accumulator holds the price and distance of a seen entry at
globally minimal distance (which is below the window). -/
def ClosestInv (t : Int) (window : Nat) (seen : List (Int × Rat))
    (acc : Option Rat × Option Nat) : Prop :=
  (acc = (none, none) ∧ ∀ e ∈ seen, ¬ diffOf t e < window) ∨
  (∃ v m, acc = (some v, some m) ∧ m < window ∧
    (∃ e ∈ seen, diffOf t e = m ∧ e.2 = v) ∧ ∀ e ∈ seen, m ≤ diffOf t e)

/-- One loop iteration preserves the invariant. -/
lemma closestStep_inv (t : Int) (window : Nat) (seen : List (Int × Rat))
    (acc : Option Rat × Option Nat) (e : Int × Rat)
    (h : ClosestInv t window seen acc) :
    ClosestInv t window (seen ++ [e]) (closestStep t window acc e) := by
  rcases h with ⟨hacc, hall⟩ | ⟨v0, m0, hacc, hm, ⟨e0, he0, hd0, hv0⟩, hall⟩
  · subst hacc
    simp only [closestStep]
    by_cases hd : diffOf t e < window
    · rw [if_pos (by simp [hd])]
      right
      refine ⟨e.2, diffOf t e, rfl, hd, ⟨e, by simp, rfl, rfl⟩, ?_⟩
      intro e' he'
      rcases List.mem_append.mp he' with h1 | h1
      · have := hall e' h1
        omega
      · have he : e' = e := by simpa using h1
        subst he
        omega
    · rw [if_neg (by simp [hd])]
      left
      refine ⟨rfl, ?_⟩
      intro e' he'
      rcases List.mem_append.mp he' with h1 | h1
      · exact hall e' h1
      · have he : e' = e := by simpa using h1
        subst he
        exact hd
  · subst hacc
    simp only [closestStep]
    by_cases hcond : diffOf t e < m0 ∧ diffOf t e < window
    · rw [if_pos (by simp [hcond.1, hcond.2])]
      right
      refine ⟨e.2, diffOf t e, rfl, hcond.2, ⟨e, by simp, rfl, rfl⟩, ?_⟩
      intro e' he'
      rcases List.mem_append.mp he' with h1 | h1
      · have := hall e' h1
        omega
      · have he : e' = e := by simpa using h1
        subst he
        omega
    · rw [if_neg (by simpa using hcond)]
      right
      refine ⟨v0, m0, rfl, hm, ⟨e0, List.mem_append.mpr (Or.inl he0), hd0, hv0⟩, ?_⟩
      intro e' he'
      rcases List.mem_append.mp he' with h1 | h1
      · exact hall e' h1
      · have he : e' = e := by simpa using h1
        subst he
        rcases Decidable.not_and_iff_or_not.mp hcond with h2 | h2 <;> omega

/-- The whole fold preserves the invariant. -/
lemma closest_foldl_inv (t : Int) (window : Nat) :
    ∀ (L seen : List (Int × Rat)) (acc : Option Rat × Option Nat),
      ClosestInv t window seen acc →
      ClosestInv t window (seen ++ L) (L.foldl (closestStep t window) acc) := by
  intro L
  induction L with
  | nil =>
      intro seen acc h
      simpa using h
  | cons e L ih =>
      intro seen acc h
      have h2 := ih (seen ++ [e]) (closestStep t window acc e)
        (closestStep_inv t window seen acc e h)
      rw [List.foldl_cons]
      have harr : seen ++ [e] ++ L = seen ++ (e :: L) := by simp
      rw [harr] at h2
      exact h2

/-- The final accumulator of `closestWithin` satisfies the invariant for
the whole map. -/
lemma closestWithin_inv (M : List (Int × Rat)) (t : Int) (window : Nat) :
    ClosestInv t window M (M.foldl (closestStep t window) (none, none)) := by
  have h0 : ClosestInv t window [] ((none, none) : Option Rat × Option Nat) :=
    Or.inl ⟨rfl, by intro e he; exact absurd he (List.not_mem_nil e)⟩
  simpa using closest_foldl_inv t window M [] (none, none) h0

/-- `closestWithin` is `none` exactly when no map entry lies strictly
within the window. -/
lemma closestWithin_none_iff (M : List (Int × Rat)) (t : Int) (window : Nat) :
    closestWithin M t window = none ↔ ∀ e ∈ M, ¬ diffOf t e < window := by
  have hinv := closestWithin_inv M t window
  rw [closestWithin]
  rcases hinv with ⟨hacc, hall⟩ | ⟨v0, m0, hacc, hm, ⟨e0, he0, hd0, -⟩, -⟩
  · rw [hacc]
    simpa using hall
  · rw [hacc]
    simp only [Option.some_ne_none, false_iff]
    intro hall
    exact (hall e0 he0) (by omega)

/-- When `closestWithin` returns a value, it is the price of a map entry
at globally minimal distance, strictly within the window. -/
lemma closestWithin_some (M : List (Int × Rat)) (t : Int) (window : Nat) (v : Rat)
    (h : closestWithin M t window = some v) :
    ∃ e ∈ M, e.2 = v ∧ diffOf t e < window ∧ ∀ e' ∈ M, diffOf t e ≤ diffOf t e' := by
  have hinv := closestWithin_inv M t window
  rw [closestWithin] at h
  rcases hinv with ⟨hacc, hall⟩ | ⟨v0, m0, hacc, hm, ⟨e0, he0, hd0, hv0⟩, hall⟩
  · rw [hacc] at h
    exact absurd h (by simp)
  · rw [hacc] at h
    have hvv : v0 = v := by simpa using h
    subst hvv
    refine ⟨e0, he0, hv0, by omega, ?_⟩
    intro e' he'
    have := hall e' he'
    omega

/-- A fold preserves any property its step preserves. -/
lemma foldl_preserve {α β : Type} (f : β → α → β) (P : β → Prop)
    (hstep : ∀ b a, P b → P (f b a)) :
    ∀ (l : List α) (b : β), P b → P (l.foldl f b) := by
  intro l
  induction l with
  | nil =>
      intro b hb
      simpa using hb
  | cons a l ih =>
      intro b hb
      rw [List.foldl_cons]
      exact ih _ (hstep b a hb)

/-- Every entry of `mapSet m k v` is an old entry or the new pair. -/
lemma mem_mapSet (m : List (Int × Rat)) (k : Int) (v : Rat) (e : Int × Rat)
    (he : e ∈ mapSet m k v) : e ∈ m ∨ e = (k, v) := by
  rw [mapSet] at he
  split at he
  · obtain ⟨e0, he0, heq⟩ := List.mem_map.mp he
    by_cases h : e0.1 = k
    · right
      rw [← heq, if_pos h]
    · left
      rw [← heq, if_neg h]
      exact he0
  · rcases List.mem_append.mp he with h | h
    · exact Or.inl h
    · right
      simpa using h

/-- `mapSet` records its key. -/
lemma mapSet_key_self (m : List (Int × Rat)) (k : Int) (v : Rat) :
    ∃ e ∈ mapSet m k v, e.1 = k := by
  rw [mapSet]
  split
  · next hany =>
      obtain ⟨e, he, hek⟩ := List.any_eq_true.mp hany
      refine ⟨(k, v), ?_, rfl⟩
      refine List.mem_map.mpr ⟨e, he, ?_⟩
      rw [if_pos (of_decide_eq_true hek)]
  · exact ⟨(k, v), by simp, rfl⟩

/-- `mapSet` never loses a key. -/
lemma mapSet_key_preserved (m : List (Int × Rat)) (k0 k : Int) (v : Rat)
    (h : ∃ e ∈ m, e.1 = k0) : ∃ e ∈ mapSet m k v, e.1 = k0 := by
  obtain ⟨e, he, hek⟩ := h
  rw [mapSet]
  split
  · by_cases hk : e.1 = k
    · refine ⟨(k, v), List.mem_map.mpr ⟨e, he, by rw [if_pos hk]⟩, ?_⟩
      rw [← hek, hk]
    · exact ⟨e, List.mem_map.mpr ⟨e, he, by rw [if_neg hk]⟩, hek⟩
  · exact ⟨e, List.mem_append.mpr (Or.inl he), hek⟩

/-- Every entry of the stock map is the (timestamp, price) pair of some
point of the series (the last one written for that timestamp). -/
lemma buildStockMap_mem_src (stock : List PricePoint) :
    ∀ e ∈ buildStockMap stock, ∃ q ∈ stock, e = (q.timestamp, q.price) := by
  rw [buildStockMap]
  suffices h : ∀ (L : List PricePoint) (acc : List (Int × Rat)) (e : Int × Rat),
      e ∈ L.foldl (fun m s => mapSet m s.timestamp s.price) acc →
      e ∈ acc ∨ ∃ q ∈ L, e = (q.timestamp, q.price) by
    intro e he
    rcases h stock [] e he with h0 | h0
    · exact absurd h0 (List.not_mem_nil e)
    · exact h0
  intro L
  induction L with
  | nil =>
      intro acc e he
      exact Or.inl (by simpa using he)
  | cons s L ih =>
      intro acc e he
      rw [List.foldl_cons] at he
      rcases ih _ e he with hacc | ⟨q, hq, heq⟩
      · rcases mem_mapSet acc s.timestamp s.price e hacc with h | h
        · exact Or.inl h
        · exact Or.inr ⟨s, by simp, h⟩
      · exact Or.inr ⟨q, by simp [hq], heq⟩

/-- Every point of the series has its timestamp among the stock map's
keys. -/
lemma buildStockMap_key_of_mem (stock : List PricePoint) :
    ∀ q ∈ stock, ∃ e ∈ buildStockMap stock, e.1 = q.timestamp := by
  rw [buildStockMap]
  suffices h : ∀ (L : List PricePoint) (acc : List (Int × Rat)) (q : PricePoint),
      q ∈ L →
      ∃ e ∈ L.foldl (fun m s => mapSet m s.timestamp s.price) acc, e.1 = q.timestamp by
    intro q hq
    exact h stock [] q hq
  intro L
  induction L with
  | nil =>
      intro acc q hq
      exact absurd hq (List.not_mem_nil q)
  | cons s L ih =>
      intro acc q hq
      rw [List.foldl_cons]
      rcases List.mem_cons.mp hq with rfl | hq
      · exact foldl_preserve _ (fun m => ∃ e ∈ m, e.1 = q.timestamp)
          (fun m s' hm => mapSet_key_preserved m q.timestamp s'.timestamp s'.price hm)
          L _ (mapSet_key_self acc q.timestamp q.price)
      · exact ih _ q hq

/-- **C2.** For every probability series, price series and window, the
aligner computes each output point independently from the probability
point and the whole price series: `matchedPrice` is `none` exactly when
no price point lies strictly within the window of the probability
point's timestamp, and any returned value is the price of a price point
whose timestamp minimises the absolute difference over the whole price
series — so several probability points may receive the same price
point. -/
theorem align_nearest_neighbor (history stock : List PricePoint) (window : Nat)
    (i : Nat) (p : PricePoint) (hp : history[i]? = some p) :
    ∃ a : AlignedPoint, (alignSeries history stock window)[i]? = some a ∧
      a.timestamp = p.timestamp ∧ a.probability = p.price ∧
      (a.matchedPrice = none ↔
        ∀ q ∈ stock, ¬ (q.timestamp - p.timestamp).natAbs < window) ∧
      (∀ v, a.matchedPrice = some v →
        ∃ q ∈ stock, q.price = v ∧ (q.timestamp - p.timestamp).natAbs < window ∧
          ∀ q' ∈ stock,
            (q.timestamp - p.timestamp).natAbs ≤ (q'.timestamp - p.timestamp).natAbs) := by
  have hmap : (alignSeries history stock window)[i]? =
      some ⟨p.timestamp, p.price, closestWithin (buildStockMap stock) p.timestamp window⟩ := by
    rw [alignSeries, List.getElem?_map, hp, Option.map_some']
  refine ⟨_, hmap, rfl, rfl, ?_, ?_⟩
  · rw [closestWithin_none_iff]
    constructor
    · intro hall q hq
      obtain ⟨e, he, hek⟩ := buildStockMap_key_of_mem stock q hq
      have h1 : ¬ (e.1 - p.timestamp).natAbs < window := hall e he
      rw [hek] at h1
      exact h1
    · intro hall e he
      obtain ⟨q, hq, rfl⟩ := buildStockMap_mem_src stock e he
      simpa [diffOf] using hall q hq
  · intro v hv
    obtain ⟨e, he, hev, hew, hemin⟩ :=
      closestWithin_some (buildStockMap stock) p.timestamp window v hv
    obtain ⟨q, hq, rfl⟩ := buildStockMap_mem_src stock e he
    refine ⟨q, hq, hev, by simpa [diffOf] using hew, ?_⟩
    intro q' hq'
    obtain ⟨e', he', hek'⟩ := buildStockMap_key_of_mem stock q' hq'
    have h2 : (q.timestamp - p.timestamp).natAbs ≤ (e'.1 - p.timestamp).natAbs :=
      hemin e' he'
    rw [hek'] at h2
    exact h2

/-- Witness for C2 at a concrete pair of series: one probability point,
two price points, window 50. -/
theorem align_nearest_neighbor_witness :
    ∃ a : AlignedPoint,
      (alignSeries [⟨0, 1⟩] [⟨3, 5⟩, ⟨100, 7⟩] 50)[0]? = some a ∧
      a.timestamp = (0 : Int) ∧ a.probability = (1 : Rat) ∧
      (a.matchedPrice = none ↔
        ∀ q ∈ ([⟨3, 5⟩, ⟨100, 7⟩] : List PricePoint),
          ¬ (q.timestamp - (0 : Int)).natAbs < 50) ∧
      (∀ v, a.matchedPrice = some v →
        ∃ q ∈ ([⟨3, 5⟩, ⟨100, 7⟩] : List PricePoint), q.price = v ∧
          (q.timestamp - (0 : Int)).natAbs < 50 ∧
          ∀ q' ∈ ([⟨3, 5⟩, ⟨100, 7⟩] : List PricePoint),
            (q.timestamp - (0 : Int)).natAbs ≤ (q'.timestamp - (0 : Int)).natAbs) :=
  align_nearest_neighbor [⟨0, 1⟩] [⟨3, 5⟩, ⟨100, 7⟩] 50 0 ⟨0, 1⟩ (by decide)

/-- **C3 counterexample.** A probability point whose nearest price point
lies exactly `WINDOW` (= 259200) seconds away is NOT matched: the source
compares with strict `<`, so `matchedPrice` is `null`, contradicting the
claim that the boundary point is matched. -/
theorem align_exact_window_not_matched :
    chartData [⟨1000, 1⟩] [⟨1000 + 259200, 50⟩] =
      [⟨1000, 1, none⟩] ∧ WINDOW = 259200 := by
  constructor
  · decide
  · rfl

/-- **C3 amended.** The window comparison is strict: a probability point
is matched exactly when some price point lies strictly less than
`windowSeconds` away; a nearest price point exactly `windowSeconds` away
(and a fortiori `windowSeconds + 1` away) yields `matchedPrice = null`.
The default window is 259200 seconds. -/
theorem align_window_boundary_strict (history stock : List PricePoint) (window : Nat)
    (i : Nat) (p : PricePoint) (hp : history[i]? = some p) :
    ∃ a : AlignedPoint, (alignSeries history stock window)[i]? = some a ∧
      ((∃ q ∈ stock, (q.timestamp - p.timestamp).natAbs < window) →
        a.matchedPrice ≠ none) ∧
      ((∀ q ∈ stock, window ≤ (q.timestamp - p.timestamp).natAbs) →
        a.matchedPrice = none) ∧
      WINDOW = 259200 := by
  have hmap : (alignSeries history stock window)[i]? =
      some ⟨p.timestamp, p.price, closestWithin (buildStockMap stock) p.timestamp window⟩ := by
    rw [alignSeries, List.getElem?_map, hp, Option.map_some']
  refine ⟨_, hmap, ?_, ?_, rfl⟩
  · rintro ⟨q, hq, hlt⟩ hnone
    rw [closestWithin_none_iff] at hnone
    obtain ⟨e, he, hek⟩ := buildStockMap_key_of_mem stock q hq
    have h1 : ¬ (e.1 - p.timestamp).natAbs < window := hnone e he
    rw [hek] at h1
    exact h1 hlt
  · intro hall
    rw [closestWithin_none_iff]
    intro e he
    obtain ⟨q, hq, rfl⟩ := buildStockMap_mem_src stock e he
    have := hall q hq
    simp only [diffOf]
    omega

/-- Witness for the amended C3: a price point 19 seconds away with
window 20 is matched; with every point at least the window away the
match is empty. -/
theorem align_window_boundary_strict_witness :
    ∃ a : AlignedPoint,
      (alignSeries [⟨0, 1⟩] [⟨19, 2⟩] 20)[0]? = some a ∧
      ((∃ q ∈ ([⟨19, 2⟩] : List PricePoint),
          (q.timestamp - (0 : Int)).natAbs < 20) → a.matchedPrice ≠ none) ∧
      ((∀ q ∈ ([⟨19, 2⟩] : List PricePoint),
          20 ≤ (q.timestamp - (0 : Int)).natAbs) → a.matchedPrice = none) ∧
      WINDOW = 259200 :=
  align_window_boundary_strict [⟨0, 1⟩] [⟨19, 2⟩] 20 0 ⟨0, 1⟩ (by decide)

/-! ## Aggregation claims -/

/-- A classification step never touches the `other` bucket. -/
lemma processMarket_other (cp : Bool) (text : String) (m : Market) (es : Option String)
    (acc : RetailerResult × List String) :
    (processMarket cp text m es acc).1.other = acc.1.other := by
  rw [processMarket]
  split
  · rfl
  · cases hc : classify text with
    | none => simp [hc]
    | some r => cases r <;> simp [hc, pushRetailer]

/-- A fold whose step preserves the `other` bucket preserves it. -/
lemma foldl_other_eq {α : Type}
    (f : (RetailerResult × List String) → α → (RetailerResult × List String))
    (hf : ∀ acc a, (f acc a).1.other = acc.1.other) :
    ∀ (l : List α) (acc), (l.foldl f acc).1.other = acc.1.other := by
  intro l
  induction l with
  | nil =>
      intro acc
      rfl
  | cons a l ih =>
      intro acc
      rw [List.foldl_cons, ih, hf]

/-- Neither event pass touches the `other` bucket. -/
lemma processEvents_other (cp : Bool) (events : List Event)
    (acc : RetailerResult × List String) :
    (processEvents cp events acc).1.other = acc.1.other := by
  rw [processEvents]
  apply foldl_other_eq
  intro acc ev
  cases hm : ev.markets with
  | none => simp [hm]
  | some ms =>
      simp only [hm]
      apply foldl_other_eq
      intro acc m
      exact processMarket_other cp (eventMarketText ev m) m (some ev.slug) acc

/-- The general-markets pass does not touch the `other` bucket either. -/
lemma processGeneralMarkets_other (markets : List Market)
    (acc : RetailerResult × List String) :
    (processGeneralMarkets markets acc).1.other = acc.1.other := by
  rw [processGeneralMarkets]
  apply foldl_other_eq
  intro acc m
  exact processMarket_other true (plainMarketText m) m none acc

/-- **C5 amended.** The "other" bucket is dead: no code path of
`fetchRetailerMarkets` ever places a market in it, so for every input
the aggregated result's "other" bucket is empty — including for markets
satisfying the specification's financial-category/earnings/ticker rule. -/
theorem fetchRetailerMarkets_other_empty (se ge : List Event) (gm : List Market) :
    (fetchRetailerMarketsCore se ge gm).other = [] := by
  rw [fetchRetailerMarketsCore]
  simp only
  rw [processGeneralMarkets_other, processEvents_other, processEvents_other]
  rfl

/-- Modelled from the spec: the allow-list of large-cap ticker symbols
referred to by the specification's "other"-bucket rule; the list itself
appears nowhere in the source, so a representative fixed list is used. -/
def largeCapTickers : List String :=
  ["aapl", "msft", "googl", "nvda", "meta", "tsla"]

/-- Modelled from the spec: the combined qualification rule for the
"other" bucket (absent from the source, which never fills that bucket):
the category label indicates a financial/stocks/equities/economics
category, AND the question contains earnings vocabulary with a quarter
marker, or an EPS/revenue mention with a numeric magnitude, or a
large-cap ticker from the fixed allow-list. -/
def specOtherBucketRule (m : ParsedMarket) : Bool :=
  (["financ", "stock", "equit", "econom"].any
      (fun s => containsSub (strLower m.category) (strLower s))) &&
  ((["earnings", "revenue", "eps"].any (fun s => containsSub (strLower m.question) (strLower s)) &&
    ["q1", "q2", "q3", "q4", "quarter"].any (fun s => containsSub (strLower m.question) (strLower s))) ||
   ((containsSub (strLower m.question) (strLower "eps") ||
     containsSub (strLower m.question) (strLower "revenue")) &&
    (strLower m.question).any (fun c => c.isDigit)) ||
   largeCapTickers.any (fun s => containsSub (strLower m.question) (strLower s)))

/-- A market satisfying the spec's "other"-bucket rule while matching no
retailer. -/
def marketOtherQualifying : Market :=
  { sampleMarket with
    id := "m2"
    question := "Will Apple (AAPL) beat Q2 2025 EPS estimates?"
    category := some "stocks" }

/-- **C5 counterexample.** A market in a financial category whose
question carries earnings vocabulary, a quarter marker and an allow-list
ticker, and which matches no retailer, is nevertheless NOT placed in the
"other" bucket — the aggregate drops it entirely, so the claimed
"exactly when" (and the claimed non-emptiness for qualifying inputs)
fails. -/
theorem qualifying_market_not_in_other :
    specOtherBucketRule (parseMarket marketOtherQualifying none) = true ∧
    classify (plainMarketText marketOtherQualifying) = none ∧
    (fetchRetailerMarketsCore [] [] [marketOtherQualifying]).other = [] ∧
    (fetchRetailerMarketsCore [] [] [marketOtherQualifying]).walmart = [] ∧
    (fetchRetailerMarketsCore [] [] [marketOtherQualifying]).amazon = [] ∧
    (fetchRetailerMarketsCore [] [] [marketOtherQualifying]).costco = [] ∧
    (fetchRetailerMarketsCore [] [] [marketOtherQualifying]).target = [] := by
  refine ⟨by decide, by decide, by decide, by decide, by decide, by decide, by decide⟩

/-- A market carried by two different parent events. -/
def marketShared : Market :=
  { sampleMarket with
    id := "m1"
    question := "Will the stock close higher this week?" }

/-- A stock event titled for Walmart carrying `marketShared`. -/
def eventWalmart : Event :=
  { id := "e1", title := some "Walmart (WMT) stock", slug := "walmart-stock",
    markets := some [marketShared] }

/-- A stock event titled for Target carrying the same `marketShared`. -/
def eventTarget : Event :=
  { id := "e2", title := some "Target (TGT) stock", slug := "target-stock",
    markets := some [marketShared] }

/-- **C9 (code bug).** The first pass of `fetchRetailerMarkets` adds
ids to `processedMarketIds` but never consults it (unlike the second and
third passes), so the same market id, nested under two stock events
whose titles name different retailers, is pushed into two different
retailer buckets: here `m1` ends up in both the walmart and the target
bucket, violating the at-most-one-bucket invariant. -/
theorem market_in_two_buckets :
    ((fetchRetailerMarketsCore [eventWalmart, eventTarget] [] []).walmart.map
        (fun m => m.id) = ["m1"]) ∧
    ((fetchRetailerMarketsCore [eventWalmart, eventTarget] [] []).target.map
        (fun m => m.id) = ["m1"]) := by
  constructor
  · decide
  · decide

/-- Membership in an insertion. -/
lemma mem_insertByVolume (y m : ParsedMarket) (l : List ParsedMarket) :
    y ∈ insertByVolume m l ↔ y = m ∨ y ∈ l := by
  induction l with
  | nil => simp [insertByVolume]
  | cons x xs ih =>
      rw [insertByVolume]
      by_cases h : x.volume ≤ m.volume
      · rw [if_pos h]
        simp [or_comm, or_left_comm]
      · rw [if_neg h]
        simp only [List.mem_cons, ih]
        tauto

/-- Inserting into a volume-descending list keeps it descending. -/
lemma pairwise_insertByVolume (m : ParsedMarket) (l : List ParsedMarket)
    (h : List.Pairwise (fun a b => b.volume ≤ a.volume) l) :
    List.Pairwise (fun a b => b.volume ≤ a.volume) (insertByVolume m l) := by
  induction l with
  | nil => simp [insertByVolume]
  | cons x xs ih =>
      rcases List.pairwise_cons.mp h with ⟨hx, hxs⟩
      rw [insertByVolume]
      by_cases hc : x.volume ≤ m.volume
      · rw [if_pos hc]
        apply List.pairwise_cons.mpr
        refine ⟨?_, h⟩
        intro y hy
        rcases List.mem_cons.mp hy with rfl | hy
        · exact hc
        · exact le_trans (hx y hy) hc
      · rw [if_neg hc]
        apply List.pairwise_cons.mpr
        refine ⟨?_, ih hxs⟩
        intro y hy
        rcases (mem_insertByVolume y m xs).mp hy with rfl | hy
        · exact le_of_lt (lt_of_not_le hc)
        · exact hx y hy

/-- The stable sort produces a volume-descending list. -/
lemma sortByVolumeDesc_sorted (l : List ParsedMarket) :
    List.Pairwise (fun a b => b.volume ≤ a.volume) (sortByVolumeDesc l) := by
  induction l with
  | nil => simp [sortByVolumeDesc]
  | cons x xs ih =>
      rw [sortByVolumeDesc]
      exact pairwise_insertByVolume x _ ih

/-- Insertion is a permutation of consing. -/
lemma insertByVolume_perm (m : ParsedMarket) (l : List ParsedMarket) :
    (insertByVolume m l).Perm (m :: l) := by
  induction l with
  | nil => rfl
  | cons x xs ih =>
      rw [insertByVolume]
      by_cases hc : x.volume ≤ m.volume
      · rw [if_pos hc]
      · rw [if_neg hc]
        exact (List.Perm.cons x ih).trans (List.Perm.swap m x xs)

/-- The stable sort is a permutation of its input. -/
lemma sortByVolumeDesc_perm (l : List ParsedMarket) :
    (sortByVolumeDesc l).Perm l := by
  induction l with
  | nil => rfl
  | cons x xs ih =>
      rw [sortByVolumeDesc]
      exact (insertByVolume_perm x _).trans (List.Perm.cons x ih)

/-- The earnings collection deduplicates by market id: its ids are
pairwise distinct. -/
lemma collectEarnings_ids_nodup (events : List Event) :
    ((collectEarnings events).map (fun m => m.id)).Nodup := by
  rw [collectEarnings]
  apply foldl_preserve _
    (fun acc : List ParsedMarket => (acc.map (fun m => m.id)).Nodup) ?_ events [] (by simp)
  intro acc ev hacc
  cases hm : ev.markets with
  | none => simpa [hm] using hacc
  | some ms =>
      simp only [hm]
      apply foldl_preserve _
        (fun acc : List ParsedMarket => (acc.map (fun m => m.id)).Nodup) ?_ ms acc hacc
      intro acc2 m hacc2
      by_cases hc : (m.active && !m.closed && !acc2.any (fun x => x.id = m.id) &&
          reTest earningsPattern (jsOrStr ev.title "" ++ " " ++ m.question)) = true
      · rw [if_pos hc]
        simp only [Bool.and_eq_true] at hc
        obtain ⟨⟨⟨-, -⟩, hnot⟩, -⟩ := hc
        rw [Bool.not_eq_true'] at hnot
        have hnotin : m.id ∉ acc2.map (fun x => x.id) := by
          intro hmem
          obtain ⟨x, hx, hxid⟩ := List.mem_map.mp hmem
          have hfalse := List.any_eq_false.mp hnot x hx
          exact hfalse (decide_eq_true hxid)
        rw [List.map_append]
        apply List.nodup_append.mpr
        refine ⟨hacc2, by simp, ?_⟩
        intro a ha hb
        have hid : a = m.id := by
          simpa [parseMarket] using hb
        subst hid
        exact hnotin ha
      · rw [if_neg hc]
        exact hacc2

/-- **C10.** `fetchEarningsMarkets` keeps, after deduplication by market
id, only the top 25 markets by trading volume: the result has length at
most 25, is sorted non-increasing by volume, and contains each market id
at most once — however many earnings markets qualify. -/
theorem fetchEarningsMarkets_top25 (allEvents : List Event) :
    (fetchEarningsMarketsCore allEvents).length ≤ 25 ∧
    List.Pairwise (fun a b => b.volume ≤ a.volume) (fetchEarningsMarketsCore allEvents) ∧
    ((fetchEarningsMarketsCore allEvents).map (fun m => m.id)).Nodup := by
  refine ⟨?_, ?_, ?_⟩
  · rw [fetchEarningsMarketsCore]
    exact List.length_take_le _ _
  · rw [fetchEarningsMarketsCore]
    exact List.Pairwise.sublist (List.take_sublist 25 _) (sortByVolumeDesc_sorted _)
  · rw [fetchEarningsMarketsCore]
    have h1 := collectEarnings_ids_nodup (dedupEvents allEvents)
    have h2 : ((sortByVolumeDesc (collectEarnings (dedupEvents allEvents))).map
        (fun m => m.id)).Nodup :=
      (((sortByVolumeDesc_perm _).map _).nodup_iff).mpr h1
    rw [List.map_take]
    exact List.Nodup.sublist (List.take_sublist 25 _) h2
